import Mathlib

/-! fq: following the output files of nq jobs

A shallow embedding of `fq.c` (poll-wait build, i.e. without `USE_INOTIFY`) and
the properties of its lock probe, candidate selection, streaming loop and quiet
filter.

Conventions of the embedding

* A C `char` is a Lean `Char`; only equality with `'\n'` is ever inspected.
* `off_t` and `ssize_t` values are `Int`; the conversion to `size_t` at the
  three places where the source converts (`off - loff > sizeof buf`, the count
  of `pread`, the count of `write`/`memchr`) is `toSizeT`, reduction mod `2^64`.
* The operating system is an oracle `Sys`, indexed by the position of a system
  call in the sequence of calls made on the file descriptor: call number `t`
  observes `lseek t`, `flock t` or `pread t`.
* Standard output is the list of bytes written so far.
-/

namespace Fq

/-! ## System-call results -/

/-- The value of `EWOULDBLOCK` from `<errno.h>` (Linux). No proof depends on the number. -/
def EWOULDBLOCK : Int := 11

/-- Outcome of `flock(fd, LOCK_EX | LOCK_NB)`: return value `0`, or `-1` with `errno`. -/
inductive FlockRes where
  | ok : FlockRes
  | err (errno : Int) : FlockRes
  deriving DecidableEq, Repr

/-- Outcome of `pread(fd, &buf, count, offset)`: `-1`, or the bytes stored at the start of `buf`. -/
inductive ReadRes where
  | fail : ReadRes
  | bytes (data : List Char) : ReadRes
  deriving DecidableEq, Repr

/-- The `ssize_t` returned by `pread`. -/
def ReadRes.rd : ReadRes → Int
  | .fail => -1
  | .bytes data => (data.length : Int)

/-- The bytes `pread` stored into the buffer (none on failure). -/
def ReadRes.data : ReadRes → List Char
  | .fail => []
  | .bytes data => data

/-- What the system calls on one file descriptor return, by call number. -/
structure Sys where
  /-- Result of `lseek(fd, 0, SEEK_END)` as call number `t`. -/
  lseek : Nat → Int
  /-- Result of `flock(fd, LOCK_EX | LOCK_NB)` as call number `t`. -/
  flock : Nat → FlockRes
  /-- Result of `pread(fd, &buf, count, offset)` as call number `t`. -/
  pread : Nat → Nat → Int → ReadRes

/-! ## Machine integers and the buffer -/

/-- Line 29: `sizeof buf`. -/
def sizeofBuf : Nat := 8192

/-- Conversion of a signed 64-bit value to `size_t`. -/
def toSizeT (x : Int) : Nat := (x % 2 ^ 64).toNat

/-- A value of type `off_t` (signed 64 bit). -/
def isOffT (x : Int) : Prop := -(2 ^ 63) ≤ x ∧ x < 2 ^ 63

instance (x : Int) : Decidable (isOffT x) := by unfold isOffT; exact inferInstance

/-- Line 29: the global `buf` at program start (static storage is zero-initialised). -/
def zeroBuf : List Char := List.replicate sizeofBuf (Char.ofNat 0)

/-- Effect of `pread` on `buf`: the bytes read overwrite the start of the buffer. -/
def storeBuf (buf data : List Char) : List Char := data ++ buf.drop data.length

/-- The bytes `write(1, buf, n)` appends to standard output. Memory past the end
of `buf` is not part of the model: the bytes written are those of `buf`. -/
def writeBuf (buf : List Char) (n : Nat) : List Char := buf.take n

/-- C `memchr(buf, c, n)`: index of the first `c` among the first `n` bytes of `buf`. -/
def memchr (buf : List Char) (c : Char) (n : Nat) : Option Nat :=
  let i := (buf.take n).indexOf c
  if i < (buf.take n).length then some i else none

/-! ## islocked (lines 31-40) -/

/-- Advisory-lock state of this process on the descriptor after `flock(fd, LOCK_EX | LOCK_NB)`. -/
def flockEx (r : FlockRes) (held : Bool) : Bool :=
  match r with
  | .ok => true
  | .err _ => held

/-- Advisory-lock state after `flock(fd, LOCK_UN)`. -/
def flockUn (_held : Bool) : Bool := false

/-- Lines 31-40. Takes the outcome of the lock attempt and whether the process
holds the lock on entry; gives the returned `int` and whether the lock is held on return. -/
def islocked (r : FlockRes) (held : Bool) : Int × Bool :=
  let held1 := flockEx r held
  match r with
  | .err errno => (if errno = EWOULDBLOCK then 1 else 0, held1)
  | .ok => (0, flockUn held1)

/-! ## Candidate selection (lines 145-162) -/

/-- What the loop over `argv` learns about one candidate. -/
structure Cand where
  /-- The name `argv[i]`. -/
  name : List Char
  /-- The descriptor returned by `openat` (negative on failure). -/
  fd : Int
  /-- Outcome of the lock attempt made by `islocked(fd)` when the candidate is reached. -/
  probe : FlockRes
  deriving DecidableEq, Repr

/-- Whether `islocked` reports the candidate locked when it is reached. -/
def reportsLocked (c : Cand) : Bool := (islocked c.probe false).1 != 0

/-- Lines 149-156 for candidate `i`: `true` when control reaches the header at line 158.
The C condition `!aflag && !islocked(fd) && (didsth || i != argc - 1)` skips the file. -/
def selected (aflag didsth : Bool) (i argc : Int) (c : Cand) : Bool :=
  if c.fd < 0 then false
  else if !aflag && (islocked c.probe false).1 == 0 && (didsth || i != argc - 1) then false
  else true

/-- Lines 145-162: the `for` loop from index `i` over the remaining candidates. Returns
the indices whose header is printed. The streaming code of lines 164-218 writes none of
`i`, `argc`, `aflag`, `didsth`, so it does not take part. -/
def forLoop (aflag : Bool) (argc : Int) : Int → List Cand → Bool → List Int
  | _, [], _ => []
  | i, c :: rest, didsth =>
    if selected aflag didsth i argc c then i :: forLoop aflag argc (i + 1) rest true
    else forLoop aflag argc (i + 1) rest didsth

/-- The indices tailed by `main` for the candidate list `argv[optind..argc)`. -/
def tailed (aflag : Bool) (optind : Int) (cands : List Cand) : List Int :=
  forLoop aflag (optind + cands.length) optind cands false

/-! ## Quiet filter (lines 195-207, 212-213) -/

/-- Lines 195-207: the bytes written for one chunk of `rd` bytes in `buf`, and the new `seen_nl`. -/
def emitChunk (qflag seen_nl : Bool) (buf : List Char) (rd : Int) : List Char × Bool :=
  if qflag then
    if !seen_nl then
      match memchr buf '\n' (toSizeT rd) with
      | some s => (writeBuf buf (s + 1), true)
      | none => (writeBuf buf (toSizeT rd), seen_nl)
    else ([], seen_nl)
  else (writeBuf buf (toSizeT rd), seen_nl)

/-- Lines 212-213: the write after the streaming loop. -/
def drainWrite (qflag seen_nl : Bool) : List Char :=
  if qflag && !seen_nl then ['\n'] else []

/-! ## Streaming loop (lines 168-210) -/

/-- Control points of the streaming loop: the head of `while (1)` (line 168), the
condition of the poll loop (line 181) with the value of `off`, and after `break`. -/
inductive Pc where
  | top : Pc
  | poll (off : Int) : Pc
  | done : Pc
  deriving DecidableEq, Repr

/-- State of the streaming loop for one file. -/
structure Cfg where
  /-- Control point. -/
  pc : Pc
  /-- Number of the next system call on the descriptor. -/
  t : Nat
  /-- The read cursor `loff`. -/
  loff : Int
  /-- The flag `seen_nl`. -/
  seen_nl : Bool
  /-- The global `buf`. -/
  buf : List Char
  /-- Whether this process holds the advisory lock on the descriptor. -/
  held : Bool
  /-- Bytes written to standard output for this file. -/
  out : List Char
  /-- Trace of the `pread` calls issued, as (offset, count); not read by the program. -/
  reads : List (Int × Nat)
  /-- Trace of the data returned by the `pread` calls; not read by the program. -/
  got : List (List Char)

/-- Line 171-172: the cursor after the truncation check. -/
def clamp (off loff : Int) : Int := if off < loff then off else loff

/-- Lines 191-194: the count passed to `pread` for end offset `off` and cursor `loff`. -/
def readCount (off loff : Int) : Nat :=
  let off2 := if toSizeT (off - loff) > sizeofBuf then loff + sizeofBuf else off
  toSizeT (off2 - loff)

/-- Lines 194-207 once `pread` has returned `r`: the bytes written, the new `seen_nl`
and the new content of `buf`. -/
def consume (qflag seen_nl : Bool) (buf : List Char) (r : ReadRes) :
    List Char × Bool × List Char :=
  let buf1 := storeBuf buf r.data
  let e := emitChunk qflag seen_nl buf1 r.rd
  (e.1, e.2, buf1)

/-- Lines 191-209: read, filter, advance the cursor. -/
def readStep (sys : Sys) (qflag : Bool) (c : Cfg) (off loff : Int) : Cfg :=
  let n := readCount off loff
  let r := sys.pread (c.t + 1) n loff
  let e := consume qflag c.seen_nl c.buf r
  { pc := .top, t := c.t + 2, loff := loff + r.rd, seen_nl := e.2.1, buf := e.2.2,
    held := c.held, out := c.out ++ e.1, reads := c.reads ++ [(loff, n)],
    got := c.got ++ [r.data] }

/-- Lines 174-189: the branch taken when `off == loff`. -/
def lockStep (sys : Sys) (c : Cfg) (off loff : Int) : Cfg :=
  match sys.flock (c.t + 1) with
  | .err errno =>
    if errno = EWOULDBLOCK then { c with pc := .poll off, t := c.t + 2, loff := loff }
    else { c with pc := .done, t := c.t + 2, loff := loff, held := flockUn c.held }
  | .ok =>
    { c with pc := .done, t := c.t + 2, loff := loff, held := flockUn (flockEx .ok c.held) }

/-- One transition of the streaming loop: from the loop head, one pass through the body
up to `continue`, `break`, the end of the body or the entry of the poll loop; from the
poll loop, one evaluation of its condition (followed by `usleep(DELAY)` when it holds). -/
def step (sys : Sys) (qflag : Bool) (c : Cfg) : Cfg :=
  match c.pc with
  | .done => c
  | .poll off =>
    if off = sys.lseek c.t then { c with t := c.t + 1 }
    else { c with pc := .top, t := c.t + 1 }
  | .top =>
    let off := sys.lseek c.t
    let loff := clamp off c.loff
    if off = loff then lockStep sys c off loff
    else readStep sys qflag c off loff

/-- The configuration after `n` transitions. -/
def run (sys : Sys) (qflag : Bool) : Nat → Cfg → Cfg
  | 0, c => c
  | n + 1, c => run sys qflag n (step sys qflag c)

/-- Lines 146-147, 158-160: the state on entry to the streaming loop of a selected file,
with the header already written. -/
def initCfg (qflag : Bool) (name buf : List Char) (t : Nat) : Cfg :=
  { pc := .top, t := t, loff := 0, seen_nl := false, buf := buf, held := false,
    out := "==> ".toList ++ name ++ [if qflag then ' ' else '\n'], reads := [], got := [] }

/-- Lines 158-213 for a selected file: the bytes written to standard output for it, when
the streaming loop leaves within `fuel` transitions. -/
def tailFile (sys : Sys) (qflag : Bool) (name buf : List Char) (t fuel : Nat) :
    Option (List Char) :=
  let c := run sys qflag fuel (initCfg qflag name buf t)
  if c.pc = .done then some (c.out ++ drainWrite qflag c.seen_nl) else none

/-- Lines 194-207 over the successive chunks returned by successful reads for one file:
the bytes written and the final `seen_nl`. -/
def feed (qflag : Bool) : List (List Char) → Bool → List Char → List Char × Bool
  | [], seen_nl, _ => ([], seen_nl)
  | d :: rest, seen_nl, buf =>
    let e := consume qflag seen_nl buf (.bytes d)
    let r := feed qflag rest e.2.1 e.2.2
    (e.1 ++ r.1, r.2)

/-- Lines 194-213: the bytes written after the header for a file whose reads returned
`chunks`, the write at drain included. -/
def emittedFor (qflag : Bool) (chunks : List (List Char)) (buf : List Char) : List Char :=
  let r := feed qflag chunks false buf
  r.1 ++ drainWrite qflag r.2

/-! ## Files with a history -/

/-- A regular file seen through one descriptor: its content and what a lock attempt
would return, at each call number. -/
structure Hist where
  /-- Content of the file when call number `t` is made. -/
  file : Nat → List Char
  /-- Outcome a non-blocking exclusive lock attempt has as call number `t`. -/
  lock : Nat → FlockRes

/-- The system calls on a regular file: `lseek` reports the size, `pread` returns the
bytes at the requested offset (as many as requested and present; `-1` for a negative offset). -/
def Hist.sys (h : Hist) : Sys where
  lseek t := ((h.file t).length : Int)
  flock t := h.lock t
  pread t n off := if off < 0 then .fail else .bytes (((h.file t).drop off.toNat).take n)

/-! ## Example files -/

/-- A finished job file: constant content, never locked. -/
def helloFile : Hist where
  file _ := "hello\nworld".toList
  lock _ := .ok

/-- A job file that grows from "ab" to "abcd" and is locked during the first six calls. -/
def growFile : Hist where
  file t := if t < 2 then ['a', 'b'] else ['a', 'b', 'c', 'd']
  lock t := if t < 6 then .err EWOULDBLOCK else .ok

/-- A job that wrote "done\n" and then released its lock without writing again: the
lock is held during the first four calls and free afterwards. -/
def stuckFile : Hist where
  file _ := "done\n".toList
  lock t := if t < 4 then .err EWOULDBLOCK else .ok

/-- An empty job file that receives one byte before the fourth call, the lock held throughout. -/
def wakeFile : Hist where
  file t := if t < 3 then [] else ['x']
  lock _ := .err EWOULDBLOCK

/-- A job file of ten bytes that is truncated to five bytes, then to two, and then grows
to four, the lock held throughout. -/
def truncFile : Hist where
  file t :=
    if t < 2 then "0123456789".toList
    else if t < 4 then "01234".toList
    else if t < 7 then "01".toList
    else "0123".toList
  lock _ := .err EWOULDBLOCK

/-- A job file of ten bytes that is truncated to five bytes and then grows to seven, the
lock held throughout. -/
def regrowFile : Hist where
  file t :=
    if t < 2 then "0123456789".toList
    else if t < 5 then "01234".toList
    else "01234ab".toList
  lock _ := .err EWOULDBLOCK

/-- A locked job file holding a burst of 20000 bytes. -/
def burstFile : Hist where
  file _ := List.replicate 20000 'x'
  lock _ := .err EWOULDBLOCK

/-- A descriptor of size 5 on which every read fails. -/
def failSys : Sys where
  lseek _ := 5
  flock _ := .ok
  pread _ _ _ := .fail

/-! ## Side conditions -/

/-- A pass from the loop head that observes no truncation and whose read, when one is
issued, does not fail. It constrains no other transition. -/
def steady (sys : Sys) (d : Cfg) : Prop :=
  d.pc = .top → d.loff ≤ sys.lseek d.t ∧
    (d.loff < sys.lseek d.t →
      sys.pread (d.t + 1) (readCount (sys.lseek d.t) d.loff) d.loff ≠ .fail)

instance (sys : Sys) (d : Cfg) : Decidable (steady sys d) := by
  unfold steady; exact inferInstance

/-! ## Arithmetic of the read request -/

theorem toSizeT_eq (x : Int) (h0 : 0 ≤ x) (h1 : x < 2 ^ 64) : (toSizeT x : Int) = x := by
  unfold toSizeT
  rw [Int.emod_eq_of_lt h0 h1]
  exact Int.toNat_of_nonneg h0

theorem toSizeT_natCast (n : Nat) (h : n < 2 ^ 64) : toSizeT (n : Int) = n := by
  have := toSizeT_eq (n : Int) (by omega) (by exact_mod_cast h)
  exact_mod_cast this

theorem readCount_eq (off loff : Int) (ho : isOffT off) (hl : isOffT loff) (hlt : loff < off) :
    (readCount off loff : Int) = min (off - loff) 8192 := by
  unfold isOffT at ho hl
  have h1 : (toSizeT (off - loff) : Int) = off - loff := toSizeT_eq _ (by omega) (by omega)
  unfold readCount
  simp only [sizeofBuf]
  by_cases hc : toSizeT (off - loff) > 8192
  · rw [if_pos hc]
    have : loff + ((8192 : Nat) : Int) - loff = 8192 := by push_cast; ring
    rw [this, toSizeT_eq _ (by norm_num) (by norm_num)]
    have : (8192 : Int) < off - loff := by rw [← h1]; exact_mod_cast hc
    omega
  · rw [if_neg hc, h1]
    have : off - loff ≤ (8192 : Int) := by
      rw [← h1]
      have : toSizeT (off - loff) ≤ 8192 := not_lt.mp hc
      exact_mod_cast this
    omega

theorem step_top_lock (sys : Sys) (q : Bool) (c : Cfg) (hpc : c.pc = .top)
    (h : sys.lseek c.t ≤ c.loff) :
    step sys q c = lockStep sys c (sys.lseek c.t) (sys.lseek c.t) := by
  have hcl : clamp (sys.lseek c.t) c.loff = sys.lseek c.t := by
    unfold clamp; split <;> omega
  simp only [step, hpc, hcl, if_true]

theorem step_top_read (sys : Sys) (q : Bool) (c : Cfg) (hpc : c.pc = .top)
    (h : c.loff < sys.lseek c.t) :
    step sys q c = readStep sys q c (sys.lseek c.t) c.loff := by
  have hcl : clamp (sys.lseek c.t) c.loff = c.loff := by
    unfold clamp; split <;> omega
  have hne : ¬ sys.lseek c.t = c.loff := by omega
  simp only [step, hpc, hcl, if_neg hne]

theorem lockStep_pc (sys : Sys) (c : Cfg) (off loff : Int) :
    (lockStep sys c off loff).pc =
      if sys.flock (c.t + 1) = .err EWOULDBLOCK then .poll off else .done := by
  unfold lockStep
  cases hf : sys.flock (c.t + 1) with
  | ok => simp
  | err e => by_cases he : e = EWOULDBLOCK <;> simp [he]

theorem lockStep_fields (sys : Sys) (c : Cfg) (off loff : Int) :
    (lockStep sys c off loff).loff = loff ∧ (lockStep sys c off loff).out = c.out ∧
    (lockStep sys c off loff).reads = c.reads ∧ (lockStep sys c off loff).t = c.t + 2 ∧
    (lockStep sys c off loff).seen_nl = c.seen_nl ∧ (lockStep sys c off loff).buf = c.buf := by
  unfold lockStep
  cases hf : sys.flock (c.t + 1) with
  | ok => simp
  | err e => by_cases he : e = EWOULDBLOCK <;> simp [he]

theorem lockStep_held (sys : Sys) (c : Cfg) (off loff : Int)
    (h : (lockStep sys c off loff).pc = .done) : (lockStep sys c off loff).held = false := by
  unfold lockStep at h ⊢
  cases hf : sys.flock (c.t + 1) with
  | ok => simp [flockUn]
  | err e =>
    by_cases he : e = EWOULDBLOCK
    · simp [hf, he] at h
    · simp [he, flockUn]

theorem top_done_iff (sys : Sys) (q : Bool) (c : Cfg) (hpc : c.pc = .top) :
    (step sys q c).pc = .done ↔
      sys.lseek c.t ≤ c.loff ∧ sys.flock (c.t + 1) ≠ .err EWOULDBLOCK := by
  by_cases hlt : c.loff < sys.lseek c.t
  · have hp : (step sys q c).pc = .top := by rw [step_top_read sys q c hpc hlt]; rfl
    constructor
    · intro h; rw [hp] at h; cases h
    · intro h; omega
  · have hle : sys.lseek c.t ≤ c.loff := not_lt.mp hlt
    rw [step_top_lock sys q c hpc hle, lockStep_pc]
    by_cases hf : sys.flock (c.t + 1) = .err EWOULDBLOCK <;> simp [hf, hle]

/-- C9. A transition of a running streaming loop leaves the loop exactly when it starts
at the loop head, the observed end-of-file offset equals the cursor after the truncation
clamp, and the lock attempt of that transition did not fail with `EWOULDBLOCK`; on leaving,
the lock is not held; and a pass that observes an end-of-file offset above the cursor
stays in the loop. -/
theorem drain_condition (sys : Sys) (qflag : Bool) (c : Cfg) (hpc : c.pc ≠ .done) :
    ((step sys qflag c).pc = .done ↔
      c.pc = .top ∧ sys.lseek c.t = clamp (sys.lseek c.t) c.loff ∧
        sys.flock (c.t + 1) ≠ .err EWOULDBLOCK) ∧
    ((step sys qflag c).pc = .done → (step sys qflag c).held = false) ∧
    (c.pc = .top → c.loff < sys.lseek c.t → (step sys qflag c).pc = .top) := by
  cases hc : c.pc with
  | done => exact absurd hc hpc
  | poll off =>
    have hs : (step sys qflag c).pc ≠ .done := by
      simp only [step, hc]; split <;> simp [hc]
    exact ⟨⟨fun h => absurd h hs, fun h => by simp at h⟩, fun h => absurd h hs,
      fun h => by simp at h⟩
  | top =>
    by_cases hlt : c.loff < sys.lseek c.t
    · have hs := step_top_read sys qflag c hc hlt
      have hcl : clamp (sys.lseek c.t) c.loff = c.loff := by unfold clamp; split <;> omega
      have hp : (step sys qflag c).pc = .top := by rw [hs]; rfl
      have hnd : (step sys qflag c).pc ≠ .done := by rw [hp]; simp
      refine ⟨⟨fun h => absurd h hnd, fun h => ?_⟩, fun h => absurd h hnd, fun _ _ => hp⟩
      rw [hcl] at h; omega
    · have hle : sys.lseek c.t ≤ c.loff := not_lt.mp hlt
      have hs := step_top_lock sys qflag c hc hle
      have hcl : clamp (sys.lseek c.t) c.loff = sys.lseek c.t := by unfold clamp; split <;> omega
      refine ⟨?_, ?_, fun _ h => absurd h hlt⟩
      · rw [hs, lockStep_pc, hcl]
        by_cases hf : sys.flock (c.t + 1) = .err EWOULDBLOCK <;> simp [hf]
      · rw [hs]; exact lockStep_held sys c _ _

/-- C9 at the finished file "hello\nworld": the first pass (size 11 above cursor 0)
stays in the loop; the second pass (size 11 equal to the cursor, lock attempt successful)
leaves it with the lock released. -/
theorem drain_condition_witness :
    (initCfg false "job".toList zeroBuf 0).pc ≠ .done ∧
    (step helloFile.sys false (initCfg false "job".toList zeroBuf 0)).pc = .top ∧
    (step helloFile.sys false
      (step helloFile.sys false (initCfg false "job".toList zeroBuf 0))).pc = .done ∧
    (step helloFile.sys false
      (step helloFile.sys false (initCfg false "job".toList zeroBuf 0))).held = false :=
  ⟨by decide,
   (drain_condition helloFile.sys false (initCfg false "job".toList zeroBuf 0)
      (by decide)).2.2 rfl (by decide),
   (drain_condition helloFile.sys false
      (step helloFile.sys false (initCfg false "job".toList zeroBuf 0))
      (by decide)).1.mpr (by decide),
   (drain_condition helloFile.sys false
      (step helloFile.sys false (initCfg false "job".toList zeroBuf 0))
      (by decide)).2.1 (by decide)⟩

/-! ## The quiet filter on chunks -/

theorem take_storeBuf (buf data : List Char) : (storeBuf buf data).take data.length = data := by
  simp [storeBuf]

theorem take_storeBuf_le (buf data : List Char) (k : Nat) (hk : k ≤ data.length) :
    (storeBuf buf data).take k = data.take k := by
  unfold storeBuf
  exact List.take_append_of_le_length hk

theorem take_indexOf_succ (a : Char) (l : List Char) (h : a ∈ l) :
    l.take (l.indexOf a + 1) = l.takeWhile (fun x => x != a) ++ [a] := by
  induction l with
  | nil => cases h
  | cons x xs ih =>
    by_cases hx : x = a
    · subst hx
      simp [List.takeWhile]
    · have hmem : a ∈ xs := by
        rcases List.mem_cons.mp h with h1 | h1
        · exact absurd h1.symm hx
        · exact h1
      have hne : (x != a) = true := by simpa using hx
      rw [List.indexOf_cons_ne _ hx, List.take_succ_cons, ih hmem, List.takeWhile_cons, hne]
      simp

theorem consume_plain (s : Bool) (buf data : List Char) (h : data.length < 2 ^ 64) :
    consume false s buf (.bytes data) = (data, s, storeBuf buf data) := by
  simp [consume, emitChunk, ReadRes.rd, ReadRes.data, writeBuf, toSizeT_natCast _ h,
    take_storeBuf]

theorem consume_seen (buf : List Char) (r : ReadRes) :
    consume true true buf r = ([], true, storeBuf buf r.data) := by
  simp [consume, emitChunk]

theorem consume_unseen (buf data : List Char) (h : data.length < 2 ^ 64) :
    consume true false buf (.bytes data) =
      if '\n' ∈ data then (data.take (data.indexOf '\n' + 1), true, storeBuf buf data)
      else (data, false, storeBuf buf data) := by
  simp only [consume, emitChunk, ReadRes.rd, ReadRes.data, writeBuf, toSizeT_natCast _ h,
    take_storeBuf, memchr, if_true, Bool.not_false]
  by_cases hm : '\n' ∈ data
  · have hlt : data.indexOf '\n' < data.length := List.indexOf_lt_length.mpr hm
    rw [if_pos hm, if_pos hlt]
    simp only [take_storeBuf_le buf data _ hlt]
  · have hnl : ¬ data.indexOf '\n' < data.length := fun h => hm (List.indexOf_lt_length.mp h)
    rw [if_neg hm, if_neg hnl]

theorem feed_seen (chunks : List (List Char)) :
    ∀ buf : List Char, feed true chunks true buf = ([], true) := by
  induction chunks with
  | nil => intro buf; rfl
  | cons d rest ih =>
    intro buf
    simp [feed, consume_seen, ih]

theorem feed_unseen (chunks : List (List Char)) :
    ∀ buf : List Char, (∀ d ∈ chunks, d.length ≤ sizeofBuf) →
    feed true chunks false buf =
      if '\n' ∈ chunks.flatten then
        (chunks.flatten.take (chunks.flatten.indexOf '\n' + 1), true)
      else (chunks.flatten, false) := by
  induction chunks with
  | nil => intro buf _; simp [feed]
  | cons d rest ih =>
    intro buf hlen
    have hd : d.length < 2 ^ 64 := by
      have := hlen d (List.mem_cons_self _ _)
      unfold sizeofBuf at this
      omega
    have hrest : ∀ x ∈ rest, x.length ≤ sizeofBuf := fun x hx => hlen x (List.mem_cons_of_mem _ hx)
    rw [feed, consume_unseen buf d hd, List.flatten_cons]
    by_cases hm : '\n' ∈ d
    · have hlt : d.indexOf '\n' < d.length := List.indexOf_lt_length.mpr hm
      have hmem : '\n' ∈ d ++ rest.flatten := List.mem_append_left _ hm
      simp only [if_pos hm, if_pos hmem, feed_seen, List.append_nil]
      rw [List.indexOf_append_of_mem hm, List.take_append_of_le_length hlt]
    · simp only [if_neg hm, ih _ hrest]
      by_cases hr : '\n' ∈ rest.flatten
      · have hmem : '\n' ∈ d ++ rest.flatten := List.mem_append_right _ hr
        rw [if_pos hr, if_pos hmem, List.indexOf_append_of_not_mem hm]
        simp only [Prod.mk.injEq, and_true]
        rw [Nat.add_assoc, List.take_append]
      · have hmem : ¬ '\n' ∈ d ++ rest.flatten := by
          simp [List.mem_append, hm, hr]
        rw [if_neg hr, if_neg hmem]

theorem emittedFor_quiet (chunks : List (List Char)) (buf : List Char)
    (hlen : ∀ d ∈ chunks, d.length ≤ sizeofBuf) :
    emittedFor true chunks buf =
      if '\n' ∈ chunks.flatten then chunks.flatten.take (chunks.flatten.indexOf '\n' + 1)
      else chunks.flatten ++ ['\n'] := by
  unfold emittedFor
  rw [feed_unseen chunks buf hlen]
  by_cases hm : '\n' ∈ chunks.flatten
  · rw [if_pos hm, if_pos hm]; simp [drainWrite]
  · rw [if_neg hm, if_neg hm]; simp [drainWrite]

/-- C2. In quiet mode, for every sequence of chunks returned by the reads of one file,
the bytes written after the header are the concatenated content up to and including its
first newline when it has one, and otherwise the whole content followed by one newline
written at drain; so they contain exactly one newline, which is their last byte. -/
theorem quiet_single_line (chunks : List (List Char)) (buf : List Char)
    (hlen : ∀ d ∈ chunks, d.length ≤ sizeofBuf) :
    (emittedFor true chunks buf =
      if '\n' ∈ chunks.flatten then chunks.flatten.take (chunks.flatten.indexOf '\n' + 1)
      else chunks.flatten ++ ['\n']) ∧
    (emittedFor true chunks buf).count '\n' = 1 ∧
    (emittedFor true chunks buf).getLast? = some '\n' := by
  have key : emittedFor true chunks buf
      = chunks.flatten.takeWhile (fun x => x != '\n') ++ ['\n'] := by
    rw [emittedFor_quiet chunks buf hlen]
    by_cases hm : '\n' ∈ chunks.flatten
    · rw [if_pos hm, take_indexOf_succ _ _ hm]
    · rw [if_neg hm]
      congr 1
      symm
      rw [List.takeWhile_eq_self_iff]
      intro x hx
      have : x ≠ '\n' := fun h => hm (h ▸ hx)
      simpa using this
  refine ⟨emittedFor_quiet chunks buf hlen, ?_, ?_⟩
  · rw [key, List.count_append]
    have : (chunks.flatten.takeWhile (fun x => x != '\n')).count '\n' = 0 := by
      rw [List.count_eq_zero]
      intro hmem
      have := List.mem_takeWhile_imp hmem
      simp at this
    rw [this]
    simp
  · rw [key]
    simp

/-- C2 at the content "alpha\nbeta\ngamma" split into three chunks, and at "noeol". -/
theorem quiet_single_line_witness :
    (∀ d ∈ ["alp".toList, "ha\nbe".toList, "ta\ngamma".toList], d.length ≤ sizeofBuf) ∧
    emittedFor true ["alp".toList, "ha\nbe".toList, "ta\ngamma".toList] zeroBuf
      = "alpha\n".toList ∧
    emittedFor true ["noeol".toList] zeroBuf = "noeol\n".toList :=
  ⟨by decide,
   (quiet_single_line ["alp".toList, "ha\nbe".toList, "ta\ngamma".toList] zeroBuf
      (by decide)).1.trans (by decide),
   (quiet_single_line ["noeol".toList] zeroBuf (by decide)).1.trans (by decide)⟩

/-! ## Runs -/

theorem step_done (sys : Sys) (q : Bool) (c : Cfg) (h : c.pc = .done) : step sys q c = c := by
  simp [step, h]

theorem run_done (sys : Sys) (q : Bool) (n : Nat) :
    ∀ c : Cfg, c.pc = .done → run sys q n c = c := by
  induction n with
  | zero => intro c _; rfl
  | succ n ih => intro c h; rw [run, step_done sys q c h]; exact ih c h

theorem run_add (sys : Sys) (q : Bool) (m n : Nat) :
    ∀ c : Cfg, run sys q (m + n) c = run sys q n (run sys q m c) := by
  induction m with
  | zero => intro c; simp [run]
  | succ m ih => intro c; rw [Nat.succ_add, run, run, ih]

theorem run_succ (sys : Sys) (q : Bool) (n : Nat) (c : Cfg) :
    run sys q (n + 1) c = step sys q (run sys q n c) := by
  rw [run_add]; rfl

/-! ## Reads on a regular file -/

/-- A successful non-quiet pass through lines 191-209 on a regular file. -/
theorem hist_read (h : Hist) (c : Cfg) (hpc : c.pc = .top) (h0 : 0 ≤ c.loff)
    (hlt : c.loff < ((h.file c.t).length : Int)) (hsz : (h.file c.t).length < 2 ^ 63)
    (hgrow : (h.file c.t).length ≤ (h.file (c.t + 1)).length) :
    ∃ n : Nat, (n : Int) = min (((h.file c.t).length : Int) - c.loff) 8192 ∧
      (((h.file (c.t + 1)).drop c.loff.toNat).take n).length = n ∧
      step h.sys false c =
        { c with
          pc := .top, t := c.t + 2, loff := c.loff + n,
          buf := storeBuf c.buf (((h.file (c.t + 1)).drop c.loff.toNat).take n),
          out := c.out ++ ((h.file (c.t + 1)).drop c.loff.toNat).take n,
          reads := c.reads ++ [(c.loff, n)],
          got := c.got ++ [((h.file (c.t + 1)).drop c.loff.toNat).take n] } := by
  have hl : h.sys.lseek c.t = ((h.file c.t).length : Int) := rfl
  have hoff : isOffT ((h.file c.t).length : Int) := by
    unfold isOffT; constructor <;> omega
  have hloff : isOffT c.loff := by unfold isOffT; constructor <;> omega
  have hrc := readCount_eq _ _ hoff hloff hlt
  refine ⟨readCount ((h.file c.t).length : Int) c.loff, hrc, ?_, ?_⟩
  · rw [List.length_take, List.length_drop]
    omega
  · have hlen : (((h.file (c.t + 1)).drop c.loff.toNat).take
        (readCount ((h.file c.t).length : Int) c.loff)).length < 2 ^ 64 := by
      rw [List.length_take, List.length_drop]; omega
    have hlen2 : (((h.file (c.t + 1)).drop c.loff.toNat).take
        (readCount ((h.file c.t).length : Int) c.loff)).length
          = readCount ((h.file c.t).length : Int) c.loff := by
      rw [List.length_take, List.length_drop]; omega
    have hnn : ¬ c.loff < 0 := by omega
    rw [step_top_read h.sys false c hpc (by rw [hl]; exact hlt)]
    simp only [readStep, hl, Hist.sys, if_neg hnn, consume_plain _ _ _ hlen, ReadRes.rd,
      ReadRes.data, hlen2]


/-! ## A finished file -/

theorem static_drain (h : Hist) (content : List Char) (hs : ∀ k, h.file k = content)
    (hu : ∀ k, h.lock k ≠ .err EWOULDBLOCK) (hsz : content.length < 2 ^ 63) :
    ∀ (m : Nat) (c : Cfg), c.pc = .top → 0 ≤ c.loff → c.loff ≤ content.length →
      ((content.length : Int) - c.loff).toNat = m →
      (run h.sys false ((m + 8191) / 8192 + 1) c).pc = .done ∧
      (run h.sys false ((m + 8191) / 8192 + 1) c).out = c.out ++ content.drop c.loff.toNat ∧
      (run h.sys false ((m + 8191) / 8192 + 1) c).seen_nl = c.seen_nl ∧
      (run h.sys false ((m + 8191) / 8192 + 1) c).loff = content.length := by
  intro m
  induction m using Nat.strong_induction_on with
  | _ m ih =>
    intro c hpc h0 hle hm
    by_cases hz : c.loff = content.length
    · have hm0 : m = 0 := by omega
      subst hm0
      have hstep : run h.sys false 1 c = lockStep h.sys c (h.sys.lseek c.t) (h.sys.lseek c.t) := by
        rw [run, run]
        exact step_top_lock h.sys false c hpc (by show ((h.file c.t).length : Int) ≤ c.loff; rw [hs]; omega)
      have hf := lockStep_fields h.sys c (h.sys.lseek c.t) (h.sys.lseek c.t)
      have hp := lockStep_pc h.sys c (h.sys.lseek c.t) (h.sys.lseek c.t)
      have hflock : h.sys.flock (c.t + 1) ≠ .err EWOULDBLOCK := hu (c.t + 1)
      rw [if_neg hflock] at hp
      have hsek : h.sys.lseek c.t = content.length := by
        show ((h.file c.t).length : Int) = _; rw [hs]
      have hdrop : content.drop c.loff.toNat = [] := by
        apply List.drop_eq_nil_of_le; omega
      simp only [Nat.zero_add, show (8191 / 8192 : Nat) = 0 from rfl]
      rw [hstep]
      refine ⟨hp, ?_, hf.2.2.2.2.1, ?_⟩
      · rw [hf.2.1, hdrop, List.append_nil]
      · rw [hf.1, hsek]
    · have hlt : c.loff < ((h.file c.t).length : Int) := by rw [hs]; omega
      obtain ⟨n, hn, hlen, hstep⟩ := hist_read h c hpc h0 hlt (by rw [hs]; exact hsz)
        (by rw [hs, hs])
      rw [hs] at hn hlen hstep
      have hfuel : (m + 8191) / 8192 + 1 = ((m - n + 8191) / 8192 + 1) + 1 := by omega
      have e1 : (step h.sys false c).pc = .top := by rw [hstep]
      have e2 : (step h.sys false c).loff = c.loff + n := by rw [hstep]
      have e3 : (step h.sys false c).out = c.out ++ (content.drop c.loff.toNat).take n := by
        rw [hstep]
      have e4 : (step h.sys false c).seen_nl = c.seen_nl := by rw [hstep]
      rw [hfuel, run]
      have := ih (m - n) (by omega) (step h.sys false c) e1 (by rw [e2]; omega)
        (by rw [e2]; omega) (by rw [e2]; omega)
      rw [e2, e3, e4] at this
      refine ⟨this.1, ?_, this.2.2.1, this.2.2.2⟩
      rw [this.2.1]
      simp only [List.append_assoc]
      congr 1
      have e : (c.loff + (n : Int)).toNat = c.loff.toNat + n := by omega
      rw [e, ← List.drop_drop, List.take_append_drop]

/-- C1. Non-quiet tailing of a finished file: when the content never changes, no lock
attempt fails with `EWOULDBLOCK` and the size fits `off_t`, the streaming loop leaves
within `⌈length / 8192⌉ + 1` transitions and the bytes written for the file are exactly
the header `==> name\n` followed by the content. -/
theorem finished_file_output (h : Hist) (name content buf : List Char) (t : Nat)
    (hs : ∀ k, h.file k = content) (hu : ∀ k, h.lock k ≠ .err EWOULDBLOCK)
    (hsz : content.length < 2 ^ 63) (fuel : Nat)
    (hfuel : (content.length + 8191) / 8192 + 1 ≤ fuel) :
    tailFile h.sys false name buf t fuel
      = some ("==> ".toList ++ name ++ ['\n'] ++ content) := by
  have hd := static_drain h content hs hu hsz content.length (initCfg false name buf t) rfl
    (le_refl _) (by show (0 : Int) ≤ _; omega) (by show ((content.length : Int) - 0).toNat = _; omega)
  obtain ⟨k, hk⟩ : ∃ k, fuel = ((content.length + 8191) / 8192 + 1) + k :=
    ⟨fuel - ((content.length + 8191) / 8192 + 1), by omega⟩
  have hrun : run h.sys false fuel (initCfg false name buf t)
      = run h.sys false ((content.length + 8191) / 8192 + 1) (initCfg false name buf t) := by
    rw [hk, run_add, run_done _ _ _ _ hd.1]
  unfold tailFile
  simp only [hrun, hd.1, if_true, hd.2.1, hd.2.2.1]
  simp [initCfg, drainWrite]


/-- C1 at the file "hello\nworld" under the name "job". -/
theorem finished_file_output_witness :
    tailFile helloFile.sys false "job".toList zeroBuf 0 2
      = some "==> job\nhello\nworld".toList :=
  finished_file_output helloFile "job".toList "hello\nworld".toList zeroBuf 0
    (fun _ => rfl) (fun _ => by simp [helloFile]) (by decide) 2 (by decide)

/-! ## A growing file -/

theorem take_eq_of_append (l1 l2 : List Char) (k : Nat) (h : ∃ tail, l2 = l1 ++ tail)
    (hk : k ≤ l1.length) : l2.take k = l1.take k := by
  obtain ⟨tail, rfl⟩ := h
  exact List.take_append_of_le_length hk

theorem length_le_of_append (l1 l2 : List Char) (h : ∃ tail, l2 = l1 ++ tail) :
    l1.length ≤ l2.length := by
  obtain ⟨tail, rfl⟩ := h
  simp

theorem grow_step (h : Hist) (pre : List Char)
    (hgrow : ∀ s t, s ≤ t → ∃ tail, h.file t = h.file s ++ tail)
    (hsz : ∀ t, (h.file t).length < 2 ^ 63) (c : Cfg)
    (h0 : 0 ≤ c.loff) (hle : c.loff ≤ ((h.file c.t).length : Int))
    (hout : c.out = pre ++ (h.file c.t).take c.loff.toNat) :
    0 ≤ (step h.sys false c).loff ∧
    (step h.sys false c).loff ≤ ((h.file (step h.sys false c).t).length : Int) ∧
    (step h.sys false c).out
      = pre ++ (h.file (step h.sys false c).t).take (step h.sys false c).loff.toNat := by
  have keep : ∀ k, 0 ≤ c.loff ∧ c.loff ≤ ((h.file (c.t + k)).length : Int) ∧
      c.out = pre ++ (h.file (c.t + k)).take c.loff.toNat := by
    intro k
    have hg := hgrow c.t (c.t + k) (by omega)
    have := length_le_of_append _ _ hg
    refine ⟨h0, by omega, ?_⟩
    rw [hout, take_eq_of_append _ _ _ hg (by omega)]
  cases hpc : c.pc with
  | done => rw [step_done _ _ _ hpc]; exact ⟨h0, hle, hout⟩
  | poll off =>
    have hs : step h.sys false c = { c with t := c.t + 1 } ∨
        step h.sys false c = { c with pc := .top, t := c.t + 1 } := by
      simp only [step, hpc]; split
      · exact Or.inl rfl
      · exact Or.inr rfl
    rcases hs with hs | hs <;> rw [hs] <;> exact keep 1
  | top =>
    by_cases hlt : c.loff < ((h.file c.t).length : Int)
    · obtain ⟨n, hn, hlen, hstep⟩ := hist_read h c hpc h0 hlt (hsz _)
        (length_le_of_append _ _ (hgrow c.t (c.t + 1) (by omega)))
      rw [hstep]
      have hg1 := hgrow c.t (c.t + 1) (by omega)
      have hg2 := hgrow (c.t + 1) (c.t + 2) (by omega)
      have hl1 := length_le_of_append _ _ hg1
      have hl2 := length_le_of_append _ _ hg2
      have e : (c.loff + (n : Int)).toNat = c.loff.toNat + n := by omega
      refine ⟨by show (0 : Int) ≤ c.loff + n; omega,
        by show c.loff + (n : Int) ≤ ((h.file (c.t + 2)).length : Int); omega, ?_⟩
      show c.out ++ List.take n (List.drop c.loff.toNat (h.file (c.t + 1)))
        = pre ++ (h.file (c.t + 2)).take (c.loff + (n : Int)).toNat
      rw [(keep 1).2.2, e, take_eq_of_append _ _ _ hg2 (by omega), List.take_add,
        List.append_assoc]
    · have hle2 : h.sys.lseek c.t ≤ c.loff := by
        show ((h.file c.t).length : Int) ≤ c.loff; omega
      rw [step_top_lock h.sys false c hpc hle2]
      have hf := lockStep_fields h.sys c (h.sys.lseek c.t) (h.sys.lseek c.t)
      have hsek : h.sys.lseek c.t = c.loff := by
        show ((h.file c.t).length : Int) = c.loff; omega
      rw [hf.1, hf.2.1, hf.2.2.2.1, hsek]
      exact keep 2

theorem step_t_le (sys : Sys) (q : Bool) (c : Cfg) : c.t ≤ (step sys q c).t := by
  cases hpc : c.pc with
  | done => rw [step_done _ _ _ hpc]
  | poll off =>
    simp only [step, hpc]; split <;> simp
  | top =>
    simp only [step, hpc]; split
    · rw [(lockStep_fields _ _ _ _).2.2.2.1]; omega
    · simp [readStep]

/-- C4. On a file that only grows, after every transition of the non-quiet streaming
loop the cursor lies between 0 and the file size and the bytes written after the header
are the file's bytes from offset 0 up to the cursor; when the loop leaves, the number of
bytes written after the header is the size observed by that drain check. -/
theorem cursor_tracks_output (h : Hist) (name buf : List Char) (t0 : Nat)
    (hgrow : ∀ s t, s ≤ t → ∃ tail, h.file t = h.file s ++ tail)
    (hsz : ∀ t, (h.file t).length < 2 ^ 63) (n : Nat) :
    0 ≤ (run h.sys false n (initCfg false name buf t0)).loff ∧
    (run h.sys false n (initCfg false name buf t0)).loff
      ≤ ((h.file (run h.sys false n (initCfg false name buf t0)).t).length : Int) ∧
    (run h.sys false n (initCfg false name buf t0)).out
      = "==> ".toList ++ name ++ ['\n'] ++
          (h.file (run h.sys false n (initCfg false name buf t0)).t).take
            (run h.sys false n (initCfg false name buf t0)).loff.toNat ∧
    ((run h.sys false n (initCfg false name buf t0)).pc = .top →
      (run h.sys false (n + 1) (initCfg false name buf t0)).pc = .done →
      (run h.sys false (n + 1) (initCfg false name buf t0)).out.length
        = ("==> ".toList ++ name ++ ['\n']).length
          + (h.file (run h.sys false n (initCfg false name buf t0)).t).length) := by
  have inv : ∀ k, 0 ≤ (run h.sys false k (initCfg false name buf t0)).loff ∧
      (run h.sys false k (initCfg false name buf t0)).loff
        ≤ ((h.file (run h.sys false k (initCfg false name buf t0)).t).length : Int) ∧
      (run h.sys false k (initCfg false name buf t0)).out
        = "==> ".toList ++ name ++ ['\n'] ++
            (h.file (run h.sys false k (initCfg false name buf t0)).t).take
              (run h.sys false k (initCfg false name buf t0)).loff.toNat := by
    intro k
    induction k with
    | zero =>
      refine ⟨le_refl _, ?_, ?_⟩
      · show (0 : Int) ≤ _; omega
      · simp [run, initCfg]
    | succ k ih =>
      rw [run_succ]
      exact grow_step h _ hgrow hsz _ ih.1 ih.2.1 ih.2.2
  refine ⟨(inv n).1, (inv n).2.1, (inv n).2.2, ?_⟩
  intro hpc hdone
  rw [run_succ] at hdone ⊢
  have hcl : h.sys.lseek (run h.sys false n (initCfg false name buf t0)).t
      ≤ (run h.sys false n (initCfg false name buf t0)).loff :=
    ((top_done_iff h.sys false _ hpc).mp hdone).1
  have heq : ((h.file (run h.sys false n (initCfg false name buf t0)).t).length : Int)
      = (run h.sys false n (initCfg false name buf t0)).loff := by
    have h1 : h.sys.lseek (run h.sys false n (initCfg false name buf t0)).t
      = ((h.file (run h.sys false n (initCfg false name buf t0)).t).length : Int) := rfl
    have := (inv n).2.1
    omega
  rw [step_top_lock _ _ _ hpc hcl, (lockStep_fields _ _ _ _).2.1, (inv n).2.2,
    List.length_append, List.length_take]
  omega

theorem growFile_grows (s t : Nat) (hst : s ≤ t) :
    ∃ tail, growFile.file t = growFile.file s ++ tail := by
  unfold growFile
  by_cases h1 : t < 2
  · have h2 : s < 2 := by omega
    exact ⟨[], by simp [h1, h2]⟩
  · by_cases h2 : s < 2
    · exact ⟨['c', 'd'], by simp [h1, h2]⟩
    · exact ⟨[], by simp [h1, h2]⟩

theorem growFile_size (t : Nat) : (growFile.file t).length < 2 ^ 63 := by
  unfold growFile
  by_cases h1 : t < 2 <;> simp [h1]

set_option maxRecDepth 100000 in
/-- C4 at a file that grows from "ab" to "abcd" while it is tailed: after three
transitions the four bytes have been written once, in order. -/
theorem cursor_tracks_output_witness :
    (run growFile.sys false 3 (initCfg false "job".toList zeroBuf 0)).out
      = "==> job\nabcd".toList :=
  (cursor_tracks_output growFile "job".toList zeroBuf 0 growFile_grows growFile_size 3).2.2.1.trans
    (by decide)

/-! ## The poll loop -/

theorem step_poll_same (sys : Sys) (q : Bool) (c : Cfg) (off : Int) (hpc : c.pc = .poll off)
    (h : sys.lseek c.t = off) : step sys q c = { c with t := c.t + 1 } := by
  simp [step, hpc, h]

theorem step_poll_changed (sys : Sys) (q : Bool) (c : Cfg) (off : Int) (hpc : c.pc = .poll off)
    (h : sys.lseek c.t ≠ off) : step sys q c = { c with pc := .top, t := c.t + 1 } := by
  have : ¬ off = sys.lseek c.t := fun e => h e.symm
  simp [step, hpc, this]

theorem poll_sleeps (sys : Sys) (q : Bool) (off : Int) (k : Nat) :
    ∀ c : Cfg, c.pc = .poll off → (∀ j, j < k → sys.lseek (c.t + j) = off) →
      run sys q k c = { c with t := c.t + k } := by
  induction k with
  | zero => intro c _ _; rfl
  | succ k ih =>
    intro c hpc hsame
    rw [run, step_poll_same sys q c off hpc (by simpa using hsame 0 (by omega))]
    have e := ih { c with t := c.t + 1 } hpc (fun j hj => by
      have := hsame (j + 1) (by omega)
      rw [← this]
      show sys.lseek (c.t + 1 + j) = sys.lseek (c.t + (j + 1))
      congr 1; omega)
    rw [e]
    show ({ c with t := c.t + 1 + k } : Cfg) = { c with t := c.t + (k + 1) }
    congr 1; omega

/-- C8, amended. In the poll-wait build, a loop suspended in the poll loop with remembered
offset `off` wakes exactly on a size change: when the first poll that observes a size
other than `off` is poll number `k`, the loop sleeps after each of the `k` earlier polls
and is back at the loop head right after, cursor and output unchanged, and the re-check
that follows leaves the loop exactly when it observes a size not above the cursor and a
lock attempt that does not fail with `EWOULDBLOCK`; when no poll ever observes another
size, the loop stays in the poll loop for ever, whatever the lock attempts would return. -/
theorem poll_wait_wakes (sys : Sys) (q : Bool) (c : Cfg) (off : Int) (hpc : c.pc = .poll off) :
    (∀ k, (∀ j, j < k → sys.lseek (c.t + j) = off) → sys.lseek (c.t + k) ≠ off →
      (∀ j, j ≤ k → (run sys q j c).pc = .poll off) ∧
      run sys q (k + 1) c = { c with pc := .top, t := c.t + k + 1 } ∧
      ((run sys q (k + 2) c).pc = .done ↔
        sys.lseek (c.t + k + 1) ≤ c.loff ∧ sys.flock (c.t + k + 2) ≠ .err EWOULDBLOCK)) ∧
    ((∀ j, sys.lseek (c.t + j) = off) → ∀ n, (run sys q n c).pc = .poll off) := by
  constructor
  · intro k hsame hne
    have hwake : run sys q (k + 1) c = { c with pc := .top, t := c.t + k + 1 } := by
      rw [run_succ, poll_sleeps sys q off k c hpc hsame]
      exact step_poll_changed sys q { c with t := c.t + k } off hpc hne
    refine ⟨?_, hwake, ?_⟩
    · intro j hj
      rw [poll_sleeps sys q off j c hpc (fun i hi => hsame i (by omega))]
      exact hpc
    · rw [show k + 2 = (k + 1) + 1 from rfl, run_succ, hwake]
      exact top_done_iff sys q { c with pc := .top, t := c.t + k + 1 } rfl
  · intro hall n
    rw [poll_sleeps sys q off n c hpc (fun j _ => hall j)]
    exact hpc

set_option maxRecDepth 100000 in
/-- C8 amended, at an empty locked file that receives a byte: suspended after the first
pass, the loop sleeps once and is back at the loop head after the second poll. -/
theorem poll_wait_wakes_witness :
    (run wakeFile.sys false 1 (initCfg false "job".toList zeroBuf 0)).pc = .poll 0 ∧
    (run wakeFile.sys false 2
      (run wakeFile.sys false 1 (initCfg false "job".toList zeroBuf 0))).pc = .top :=
  ⟨by decide,
   congrArg Cfg.pc
     ((poll_wait_wakes wakeFile.sys false
        (run wakeFile.sys false 1 (initCfg false "job".toList zeroBuf 0)) 0 (by decide)).1 1
        (by decide) (by decide)).2.1⟩

/-- C8 refuted: the writer of `stuckFile` holds the lock at the lock attempt that suspends
the loop (call 3) and has released it from call 4 on, the size staying 5; the streaming
loop never leaves, for any number of transitions. -/
theorem poll_wait_misses_release :
    stuckFile.lock 3 = .err EWOULDBLOCK ∧ (∀ t, 4 ≤ t → stuckFile.lock t = .ok) ∧
    ¬ ∃ fuel, (tailFile stuckFile.sys false "job".toList zeroBuf 0 fuel).isSome = true := by
  refine ⟨by decide, ?_, ?_⟩
  · intro t ht
    have : ¬ t < 4 := by omega
    simp [stuckFile, this]
  · rintro ⟨fuel, hf⟩
    have h2 : (run stuckFile.sys false 2 (initCfg false "job".toList zeroBuf 0)).pc = .poll 5 := by
      decide
    have hall : ∀ n, (run stuckFile.sys false n
        (run stuckFile.sys false 2 (initCfg false "job".toList zeroBuf 0))).pc = .poll 5 := by
      intro n
      rw [poll_sleeps stuckFile.sys false 5 n _ h2 (fun _ _ => rfl)]
      exact h2
    have hpc : ∀ n, (run stuckFile.sys false n (initCfg false "job".toList zeroBuf 0)).pc ≠ .done := by
      intro n
      rcases Nat.lt_or_ge n 2 with hn | hn
      · interval_cases n <;> decide
      · obtain ⟨m, rfl⟩ : ∃ m, n = 2 + m := ⟨n - 2, by omega⟩
        rw [run_add, hall m]
        simp
    unfold tailFile at hf
    rw [if_neg (hpc fuel)] at hf
    simp at hf


/-! ## Truncation -/

theorem rd_nonneg (r : ReadRes) (h : r ≠ .fail) : 0 ≤ r.rd := by
  cases r with
  | fail => exact absurd rfl h
  | bytes d => simp [ReadRes.rd]

theorem step_steady (sys : Sys) (q : Bool) (b : Int) (d : Cfg) (hb : b ≤ d.loff)
    (hs : steady sys d) :
    b ≤ (step sys q d).loff ∧
    ∃ extra, (step sys q d).reads = d.reads ++ extra ∧ ∀ r ∈ extra, b ≤ r.1 := by
  cases hpc : d.pc with
  | done => rw [step_done _ _ _ hpc]; exact ⟨hb, [], by simp, by simp⟩
  | poll off =>
    by_cases h : sys.lseek d.t = off
    · rw [step_poll_same sys q d off hpc h]; exact ⟨hb, [], by simp, by simp⟩
    · rw [step_poll_changed sys q d off hpc h]; exact ⟨hb, [], by simp, by simp⟩
  | top =>
    obtain ⟨hle, hread⟩ := hs hpc
    by_cases hlt : d.loff < sys.lseek d.t
    · rw [step_top_read sys q d hpc hlt]
      have := rd_nonneg _ (hread hlt)
      refine ⟨by show b ≤ d.loff + _; omega, [(d.loff, readCount (sys.lseek d.t) d.loff)], rfl, ?_⟩
      intro r hr
      rw [List.mem_singleton] at hr
      rw [hr]; exact hb
    · rw [step_top_lock sys q d hpc (not_lt.mp hlt)]
      have hf := lockStep_fields sys d (sys.lseek d.t) (sys.lseek d.t)
      rw [hf.1, hf.2.2.1]
      exact ⟨by omega, [], by simp, by simp⟩

theorem run_steady (sys : Sys) (q : Bool) (b : Int) (c : Cfg) (hb : b ≤ c.loff) :
    ∀ n, (∀ j, j < n → steady sys (run sys q j c)) →
      b ≤ (run sys q n c).loff ∧
      ∃ extra, (run sys q n c).reads = c.reads ++ extra ∧ ∀ r ∈ extra, b ≤ r.1 := by
  intro n
  induction n with
  | zero => intro _; exact ⟨hb, [], by simp [run], by simp⟩
  | succ n ih =>
    intro hs
    obtain ⟨h1, e1, he1, hr1⟩ := ih (fun j hj => hs j (by omega))
    obtain ⟨h2, e2, he2, hr2⟩ := step_steady sys q b _ h1 (hs n (by omega))
    rw [run_succ]
    refine ⟨h2, e1 ++ e2, by rw [he2, he1, List.append_assoc], ?_⟩
    intro r hr
    rcases List.mem_append.mp hr with h | h
    · exact hr1 r h
    · exact hr2 r h

/-- C5, amended. A pass from the loop head that observes an end-of-file offset below the
cursor sets the cursor to that offset, issues no read, writes nothing and goes to the lock
check (to the poll loop when the attempt fails with `EWOULDBLOCK`, out of the loop
otherwise); and as long as no later pass observes an end-of-file offset below its cursor
and no read fails, every read issued later starts at or above the new cursor. -/
theorem truncation_handling (sys : Sys) (q : Bool) (c : Cfg) (hpc : c.pc = .top)
    (hlt : sys.lseek c.t < c.loff) :
    (step sys q c).loff = sys.lseek c.t ∧
    (step sys q c).reads = c.reads ∧
    (step sys q c).out = c.out ∧
    (step sys q c).pc
      = (if sys.flock (c.t + 1) = .err EWOULDBLOCK then .poll (sys.lseek c.t) else .done) ∧
    ∀ n, (∀ j, j < n → steady sys (run sys q j (step sys q c))) →
      ∃ extra, (run sys q n (step sys q c)).reads = c.reads ++ extra ∧
        ∀ r ∈ extra, sys.lseek c.t ≤ r.1 := by
  have hs := step_top_lock sys q c hpc (le_of_lt hlt)
  have hf := lockStep_fields sys c (sys.lseek c.t) (sys.lseek c.t)
  have hp := lockStep_pc sys c (sys.lseek c.t) (sys.lseek c.t)
  rw [← hs] at hf hp
  refine ⟨hf.1, hf.2.2.1, hf.2.1, hp, ?_⟩
  intro n hn
  have := (run_steady sys q (sys.lseek c.t) (step sys q c) (le_of_eq hf.1.symm) n hn).2
  rw [hf.2.2.1] at this
  exact this

set_option maxRecDepth 100000 in
/-- C5 refuted: on `truncFile` the second pass observes size 5 below cursor 10 and sets
the cursor to 5; a later pass observes size 2 and lowers the cursor again, and the read
issued after the file has grown to 4 bytes starts at offset 2, below 5. -/
theorem truncation_reread :
    (run truncFile.sys false 1 (initCfg false "job".toList zeroBuf 0)).pc = .top ∧
    (run truncFile.sys false 1 (initCfg false "job".toList zeroBuf 0)).loff = 10 ∧
    truncFile.sys.lseek (run truncFile.sys false 1 (initCfg false "job".toList zeroBuf 0)).t = 5 ∧
    (run truncFile.sys false 2 (initCfg false "job".toList zeroBuf 0)).loff = 5 ∧
    (run truncFile.sys false 2 (initCfg false "job".toList zeroBuf 0)).reads = [(0, 10)] ∧
    (run truncFile.sys false 6 (initCfg false "job".toList zeroBuf 0)).reads
      = [(0, 10), (2, 2)] := by
  decide

set_option maxRecDepth 100000 in
/-- C5 amended, at `regrowFile`: the second pass observes size 5 below cursor 10; the
cursor becomes 5 and the read issued once the file has grown to 7 bytes starts at 5. -/
theorem truncation_handling_witness :
    (run regrowFile.sys false 1 (initCfg false "job".toList zeroBuf 0)).pc = .top ∧
    regrowFile.sys.lseek (run regrowFile.sys false 1 (initCfg false "job".toList zeroBuf 0)).t
      < (run regrowFile.sys false 1 (initCfg false "job".toList zeroBuf 0)).loff ∧
    (step regrowFile.sys false
      (run regrowFile.sys false 1 (initCfg false "job".toList zeroBuf 0))).loff = 5 ∧
    (run regrowFile.sys false 5 (initCfg false "job".toList zeroBuf 0)).reads
      = [(0, 10), (5, 2)] ∧
    ∃ extra,
      (run regrowFile.sys false 4 (step regrowFile.sys false
        (run regrowFile.sys false 1 (initCfg false "job".toList zeroBuf 0)))).reads
        = (run regrowFile.sys false 1 (initCfg false "job".toList zeroBuf 0)).reads ++ extra ∧
      ∀ r ∈ extra,
        regrowFile.sys.lseek (run regrowFile.sys false 1 (initCfg false "job".toList zeroBuf 0)).t
          ≤ r.1 :=
  ⟨by decide, by decide,
   (truncation_handling regrowFile.sys false
      (run regrowFile.sys false 1 (initCfg false "job".toList zeroBuf 0))
      (by decide) (by decide)).1.trans (by decide),
   by decide,
   (truncation_handling regrowFile.sys false
      (run regrowFile.sys false 1 (initCfg false "job".toList zeroBuf 0))
      (by decide) (by decide)).2.2.2.2 4 (by decide)⟩

/-! ## Read requests -/

theorem step_reads (sys : Sys) (q : Bool) (c : Cfg) :
    (step sys q c).reads = c.reads ∨
    (c.pc = .top ∧ c.loff < sys.lseek c.t ∧
      (step sys q c).reads = c.reads ++ [(c.loff, readCount (sys.lseek c.t) c.loff)]) := by
  cases hpc : c.pc with
  | done => rw [step_done _ _ _ hpc]; exact Or.inl rfl
  | poll off =>
    by_cases h : sys.lseek c.t = off
    · rw [step_poll_same sys q c off hpc h]; exact Or.inl rfl
    · rw [step_poll_changed sys q c off hpc h]; exact Or.inl rfl
  | top =>
    by_cases hlt : c.loff < sys.lseek c.t
    · rw [step_top_read sys q c hpc hlt]; exact Or.inr ⟨rfl, hlt, rfl⟩
    · rw [step_top_lock sys q c hpc (not_lt.mp hlt)]
      exact Or.inl (lockStep_fields sys c _ _).2.2.1

theorem static_read (h : Hist) (content : List Char) (hs : ∀ k, h.file k = content)
    (hsz : content.length < 2 ^ 63) (c : Cfg) (hpc : c.pc = .top) (p n : Nat)
    (hp : c.loff = p) (hn : n = min (content.length - p) 8192) (hlt : p < content.length) :
    (step h.sys false c).pc = .top ∧ (step h.sys false c).loff = ((p + n : Nat) : Int) ∧
    (step h.sys false c).out = c.out ++ (content.drop p).take n ∧
    (step h.sys false c).reads = c.reads ++ [((p : Int), n)] := by
  obtain ⟨m, hm, _, hstep⟩ := hist_read h c hpc (by omega) (by rw [hs]; omega)
    (by rw [hs]; exact hsz) (by rw [hs, hs])
  rw [hs] at hm hstep
  have hmn : m = n := by omega
  subst hmn
  have hpn : c.loff.toNat = p := by omega
  rw [hstep, hpn, hp]
  refine ⟨rfl, ?_, rfl, rfl⟩
  show (p : Int) + (m : Int) = ((p + m : Nat) : Int)
  push_cast; rfl

/-- C6. For `off_t` values of the observed end-of-file offset and the cursor, a transition
issues at most one read, and a read it issues starts at the cursor and requests exactly
`min (eof - cursor) 8192` bytes, between 1 and 8192; and when 20000 bytes have been appended
behind the cursor, three passes issue reads of 8192, 8192 and 3616 bytes at consecutive
offsets and write exactly the appended bytes. -/
theorem bounded_read_chunking (sys : Sys) (q : Bool) (c : Cfg)
    (hoff : isOffT (sys.lseek c.t)) (hloff : isOffT c.loff)
    (h : Hist) (pre burst : List Char) (d : Cfg)
    (hs : ∀ k, h.file k = pre ++ burst) (hb : burst.length = 20000)
    (hsz : (pre ++ burst).length < 2 ^ 63) (hpc : d.pc = .top) (hcur : d.loff = pre.length) :
    ((step sys q c).reads = c.reads ∨
      ∃ n : Nat, (step sys q c).reads = c.reads ++ [(c.loff, n)] ∧
        (n : Int) = min (sys.lseek c.t - c.loff) 8192 ∧ 1 ≤ n ∧ n ≤ sizeofBuf) ∧
    (run h.sys false 3 d).reads = d.reads ++
      [((pre.length : Int), 8192), ((pre.length : Int) + 8192, 8192),
        ((pre.length : Int) + 16384, 3616)] ∧
    (run h.sys false 3 d).out = d.out ++ burst := by
  constructor
  · rcases step_reads sys q c with hsame | ⟨_, hlt, hr⟩
    · exact Or.inl hsame
    · have hrc := readCount_eq _ _ hoff hloff hlt
      refine Or.inr ⟨_, hr, hrc, ?_, ?_⟩
      · omega
      · unfold sizeofBuf; omega
  · have hlen : (pre ++ burst).length = pre.length + 20000 := by simp [hb]
    have s1 := static_read h _ hs hsz d hpc pre.length 8192 hcur (by omega) (by omega)
    have s2 := static_read h _ hs hsz (step h.sys false d) s1.1 (pre.length + 8192) 8192
      s1.2.1 (by omega) (by omega)
    have s3 := static_read h _ hs hsz (step h.sys false (step h.sys false d)) s2.1
      (pre.length + 8192 + 8192) 3616 s2.2.1 (by omega) (by omega)
    have hrun : run h.sys false 3 d = step h.sys false (step h.sys false (step h.sys false d)) :=
      rfl
    rw [hrun, s3.2.2.2, s2.2.2.2, s1.2.2.2, s3.2.2.1, s2.2.2.1, s1.2.2.1]
    constructor
    · simp only [List.append_assoc, List.singleton_append, Nat.cast_add, Nat.cast_ofNat]
      have e : (pre.length : Int) + 8192 + 8192 = (pre.length : Int) + 16384 := by ring
      rw [e]
      rfl
    · simp only [List.append_assoc]
      congr 1
      have d1 : (pre ++ burst).drop pre.length = burst := by simp
      have d2 : (pre ++ burst).drop (pre.length + 8192) = burst.drop 8192 := by
        rw [← List.drop_drop, d1]
      have d3 : (pre ++ burst).drop (pre.length + 8192 + 8192) = burst.drop 16384 := by
        rw [Nat.add_assoc, ← List.drop_drop, d1]
      rw [d1, d2, d3]
      have t3 : (burst.drop 16384).take 3616 = burst.drop 16384 := by
        apply List.take_of_length_le
        rw [List.length_drop]; omega
      have t2 : (burst.drop 8192).take 8192 ++ burst.drop 16384 = burst.drop 8192 := by
        have := List.take_append_drop 8192 (burst.drop 8192)
        rw [List.drop_drop] at this
        exact this
      rw [t3, t2, List.take_append_drop]

/-- C6 at the first pass over "hello\nworld" and at a burst of 20000 bytes appended to an
empty file: the three reads are (0, 8192), (8192, 8192) and (16384, 3616). -/
theorem bounded_read_chunking_witness :
    isOffT (helloFile.sys.lseek (initCfg false "job".toList zeroBuf 0).t) ∧
    isOffT (initCfg false "job".toList zeroBuf 0).loff ∧
    (List.replicate 20000 'x').length = 20000 ∧
    (run burstFile.sys false 3 (initCfg false "job".toList zeroBuf 0)).reads
      = [(0, 8192), (8192, 8192), (16384, 3616)] ∧
    (run burstFile.sys false 3 (initCfg false "job".toList zeroBuf 0)).out
      = "==> job\n".toList ++ List.replicate 20000 'x' :=
  ⟨by decide, by decide, List.length_replicate _ _,
   (bounded_read_chunking helloFile.sys false (initCfg false "job".toList zeroBuf 0)
      (by decide) (by decide) burstFile [] (List.replicate 20000 'x')
      (initCfg false "job".toList zeroBuf 0) (fun _ => rfl) (List.length_replicate _ _)
      (by rw [List.nil_append, List.length_replicate]; norm_num) rfl rfl).2.1.trans (by decide),
   (bounded_read_chunking helloFile.sys false (initCfg false "job".toList zeroBuf 0)
      (by decide) (by decide) burstFile [] (List.replicate 20000 'x')
      (initCfg false "job".toList zeroBuf 0) (fun _ => rfl) (List.length_replicate _ _)
      (by rw [List.nil_append, List.length_replicate]; norm_num) rfl rfl).2.2.trans rfl⟩

/-- A pass whose read succeeds (non-quiet mode): the cursor advances by the number of
bytes returned, stays at or below the observed end-of-file offset, and exactly the bytes
returned are written. -/
theorem read_success_bounds (sys : Sys) (c : Cfg) (hpc : c.pc = .top)
    (hoff : isOffT (sys.lseek c.t)) (hloff : isOffT c.loff) (hlt : c.loff < sys.lseek c.t)
    (data : List Char)
    (hr : sys.pread (c.t + 1) (readCount (sys.lseek c.t) c.loff) c.loff = .bytes data)
    (hlen : data.length ≤ readCount (sys.lseek c.t) c.loff) :
    (step sys false c).loff = c.loff + (data.length : Int) ∧
    c.loff ≤ (step sys false c).loff ∧
    (step sys false c).loff ≤ sys.lseek c.t ∧
    (step sys false c).out = c.out ++ data := by
  have hrc := readCount_eq _ _ hoff hloff hlt
  have h64 : data.length < 2 ^ 64 := by omega
  rw [step_top_read sys false c hpc hlt]
  simp only [readStep, hr, consume_plain _ _ _ h64, ReadRes.rd]
  refine ⟨trivial, ?_, ?_, trivial⟩ <;> omega

set_option maxRecDepth 100000 in
/-- Quiet tailing of the finished file "hello\nworld": header, a space, the first line. -/
theorem quiet_tail_example :
    tailFile helloFile.sys true "job".toList zeroBuf 0 2 = some "==> job hello\n".toList := by
  decide

/-- C10 at a failing read: with cursor 0 and end-of-file offset 5 the pass requests 5
bytes at offset 0; `pread` returns -1 and the cursor becomes -1; the next pass requests 6
bytes at offset -1 and the cursor becomes -2. -/
theorem read_failure_moves_cursor_back :
    (initCfg false "job".toList zeroBuf 0).loff = 0 ∧
    (step failSys false (initCfg false "job".toList zeroBuf 0)).reads = [(0, 5)] ∧
    (step failSys false (initCfg false "job".toList zeroBuf 0)).loff = -1 ∧
    (run failSys false 2 (initCfg false "job".toList zeroBuf 0)).reads = [(0, 5), (-1, 6)] ∧
    (run failSys false 2 (initCfg false "job".toList zeroBuf 0)).loff = -2 := by
  decide

/-! ## Properties of islocked -/

/-- C7. `islocked` reports "locked" exactly when the lock attempt failed with
`EWOULDBLOCK`; on success the lock is acquired and released again and the result is 0;
on any other error the result is 0; the lock is never held on return. -/
theorem islocked_fail_open :
    (∀ r : FlockRes, (islocked r false).1 ≠ 0 ↔ r = .err EWOULDBLOCK) ∧
    (flockEx .ok false = true ∧ islocked .ok false = (0, false)) ∧
    (∀ e : Int, islocked (.err e) false = (if e = EWOULDBLOCK then 1 else 0, false)) ∧
    (∀ r : FlockRes, (islocked r false).2 = false) := by
  refine ⟨?_, ⟨rfl, rfl⟩, fun e => rfl, ?_⟩
  · intro r
    cases r with
    | ok => simp [islocked]
    | err e =>
      by_cases h : e = EWOULDBLOCK <;> simp [islocked, h]
  · intro r
    cases r <;> rfl

/-! ## Properties of the selection loop -/

theorem selected_eq (didsth : Bool) (i argc : Int) (c : Cand) (h : 0 ≤ c.fd) :
    selected false didsth i argc c = (reportsLocked c || (!didsth && i == argc - 1)) := by
  have h' : ¬ c.fd < 0 := not_lt.mpr h
  simp only [selected, reportsLocked, if_neg h']
  by_cases hl : (islocked c.probe false).1 = 0 <;> cases didsth <;>
    by_cases hi : i = argc - 1 <;> simp [hl, hi]

theorem selected_all (didsth : Bool) (i argc : Int) (c : Cand) (h : 0 ≤ c.fd) :
    selected true didsth i argc c = true := by
  have h' : ¬ c.fd < 0 := not_lt.mpr h
  simp [selected, h']

theorem forLoop_false (optind : Int) (cs : List Cand) :
    ∀ (n : Nat) (didsth : Bool), (∀ c ∈ cs, 0 ≤ c.fd) →
    forLoop false (optind + n + cs.length) (optind + n) cs didsth =
      ((cs.enumFrom n).filter (fun p =>
          if didsth || cs.any reportsLocked then reportsLocked p.2
          else decide (p.1 + 1 = n + cs.length))).map (fun p => optind + p.1) := by
  induction cs with
  | nil => intro n d _; rfl
  | cons c rest ih =>
    intro n d hopen
    have hc : 0 ≤ c.fd := hopen c (List.mem_cons_self _ _)
    have hrest : ∀ x ∈ rest, 0 ≤ x.fd := fun x hx => hopen x (List.mem_cons_of_mem _ hx)
    have e1 : optind + (n : Int) + ((c :: rest).length : Int)
        = optind + ((n + 1 : Nat) : Int) + (rest.length : Int) := by
      simp; ring
    have e2 : optind + (n : Int) + 1 = optind + ((n + 1 : Nat) : Int) := by simp; ring
    rw [forLoop, selected_eq _ _ _ _ hc, e1, e2, ih (n + 1) true hrest, ih (n + 1) d hrest]
    have hlast : (optind + (n : Int) == optind + ((n + 1 : Nat) : Int) + (rest.length : Int) - 1)
        = decide (rest.length = 0) := by
      rw [Bool.eq_iff_iff]; simp
      rw [← List.length_eq_zero]; omega
    rw [hlast]
    simp only [List.enumFrom_cons, List.filter_cons, List.any_cons, List.length_cons]
    by_cases hl : reportsLocked c = true
    · simp [hl]
    · simp only [Bool.not_eq_true] at hl
      cases d
      · by_cases hr : rest.length = 0
        · have : rest = [] := List.length_eq_zero.mp hr
          subst this
          simp [hl]
        · have e3 : n + 1 + rest.length = n + (rest.length + 1) := by omega
          simp [hl, hr, e3]
      · simp [hl]

theorem forLoop_none (argc : Int) (cs : List Cand) :
    ∀ (i : Int), cs ≠ [] → (∀ c ∈ cs, 0 ≤ c.fd) → cs.any reportsLocked = false →
    argc = i + cs.length → forLoop false argc i cs false = [argc - 1] := by
  induction cs with
  | nil => intro i h; exact absurd rfl h
  | cons c rest ih =>
    intro i _ hopen hno hargc
    have hc : 0 ≤ c.fd := hopen c (List.mem_cons_self _ _)
    have hrest : ∀ x ∈ rest, 0 ≤ x.fd := fun x hx => hopen x (List.mem_cons_of_mem _ hx)
    rw [List.any_cons, Bool.or_eq_false_iff] at hno
    rw [forLoop, selected_eq _ _ _ _ hc, hno.1]
    by_cases hr : rest = []
    · subst hr
      have : i = argc - 1 := by simp at hargc; omega
      simp [this, forLoop]
    · have hne : ¬ i = argc - 1 := by
        have : 0 < rest.length := List.length_pos.mpr hr
        simp at hargc; omega
      have := ih (i + 1) hr hrest hno.2 (by simp at hargc ⊢; omega)
      simp [hne, this]

theorem forLoop_all (argc : Int) (cs : List Cand) :
    ∀ (i : Int) (didsth : Bool), (∀ c ∈ cs, 0 ≤ c.fd) →
    forLoop true argc i cs didsth = (List.range cs.length).map (fun (k : Nat) => i + (k : Int)) := by
  induction cs with
  | nil => intro i d _; rfl
  | cons c rest ih =>
    intro i d hopen
    have hc : 0 ≤ c.fd := hopen c (List.mem_cons_self _ _)
    have hrest : ∀ x ∈ rest, 0 ≤ x.fd := fun x hx => hopen x (List.mem_cons_of_mem _ hx)
    rw [forLoop, selected_all _ _ _ _ hc, if_pos rfl, ih (i + 1) true hrest,
      List.length_cons, List.range_succ_eq_map, List.map_cons, List.map_map]
    simp only [Nat.cast_zero, add_zero, List.cons.injEq, true_and]
    apply List.map_congr_left
    intro k _
    simp only [Function.comp, Nat.cast_succ]
    ring

/-- C3. For a non-empty candidate list whose files all open: without show-all, when some
candidate is reported locked the tailed candidates are exactly the candidates reported
locked, and when none is reported locked exactly the last candidate is tailed; with
show-all, every candidate is tailed. -/
theorem default_selection (optind : Int) (cands : List Cand) (hne : cands ≠ [])
    (hopen : ∀ c ∈ cands, 0 ≤ c.fd) :
    (cands.any reportsLocked = true →
      tailed false optind cands =
        (cands.enum.filter (fun p => reportsLocked p.2)).map (fun p => optind + (p.1 : Int))) ∧
    (cands.any reportsLocked = false →
      tailed false optind cands = [optind + (cands.length : Int) - 1]) ∧
    tailed true optind cands = (List.range cands.length).map (fun (k : Nat) => optind + (k : Int)) := by
  refine ⟨?_, ?_, ?_⟩
  · intro hany
    have h := forLoop_false optind cands 0 false hopen
    simp only [Nat.cast_zero, add_zero, Bool.false_or, hany, if_true] at h
    rw [tailed, h, List.enum]
  · intro hno
    exact forLoop_none _ cands optind hne hopen hno rfl
  · exact forLoop_all _ cands optind false hopen

/-- C3 at three candidates: only the second locked tails only the second (index 1);
none locked tails only the third (index 2); show-all tails all three. -/
theorem default_selection_witness :
    tailed false 0 [⟨['a'], 3, .ok⟩, ⟨['b'], 3, .err EWOULDBLOCK⟩, ⟨['c'], 3, .ok⟩] = [1] ∧
    tailed false 0 [⟨['a'], 3, .ok⟩, ⟨['b'], 3, .ok⟩, ⟨['c'], 3, .err 5⟩] = [2] ∧
    tailed true 0 [⟨['a'], 3, .ok⟩, ⟨['b'], 3, .ok⟩, ⟨['c'], 3, .ok⟩] = [0, 1, 2] := by
  refine ⟨?_, ?_, ?_⟩
  · exact (default_selection 0 [⟨['a'], 3, .ok⟩, ⟨['b'], 3, .err EWOULDBLOCK⟩, ⟨['c'], 3, .ok⟩]
      (by decide) (by decide)).1 (by decide)
  · exact (default_selection 0 [⟨['a'], 3, .ok⟩, ⟨['b'], 3, .ok⟩, ⟨['c'], 3, .err 5⟩]
      (by decide) (by decide)).2.1 (by decide)
  · exact (default_selection 0 [⟨['a'], 3, .ok⟩, ⟨['b'], 3, .ok⟩, ⟨['c'], 3, .ok⟩]
      (by decide) (by decide)).2.2


/-! ## The streaming loop feeds the filter -/

theorem consume_buf (q s : Bool) (b : List Char) (r : ReadRes) :
    (consume q s b r).2.2 = storeBuf b r.data := rfl

theorem feed_append (q : Bool) (xs : List (List Char)) :
    ∀ (s : Bool) (b d : List Char),
      feed q (xs ++ [d]) s b =
        ((feed q xs s b).1 ++ (consume q (feed q xs s b).2 (xs.foldl storeBuf b) (.bytes d)).1,
         (consume q (feed q xs s b).2 (xs.foldl storeBuf b) (.bytes d)).2.1) := by
  induction xs with
  | nil => intro s b d; simp [feed]
  | cons x xs ih =>
    intro s b d
    show feed q (x :: (xs ++ [d])) s b = _
    rw [feed, ih]
    simp only [feed, List.foldl_cons, consume_buf, ReadRes.data, List.append_assoc]

theorem res_eq_bytes (r : ReadRes) (h : r ≠ .fail) : r = .bytes r.data := by
  cases r with
  | fail => exact absurd rfl h
  | bytes d => rfl

theorem lockStep_got (sys : Sys) (c : Cfg) (off loff : Int) :
    (lockStep sys c off loff).got = c.got := by
  unfold lockStep
  cases hf : sys.flock (c.t + 1) with
  | ok => simp
  | err e => by_cases he : e = EWOULDBLOCK <;> simp [he]

theorem step_feed (sys : Sys) (q : Bool) (pre buf0 : List Char)
    (hok : ∀ t k off, sys.pread t k off ≠ .fail) (c : Cfg)
    (hout : c.out = pre ++ (feed q c.got false buf0).1)
    (hseen : c.seen_nl = (feed q c.got false buf0).2)
    (hbuf : c.buf = c.got.foldl storeBuf buf0) :
    (step sys q c).out = pre ++ (feed q (step sys q c).got false buf0).1 ∧
    (step sys q c).seen_nl = (feed q (step sys q c).got false buf0).2 ∧
    (step sys q c).buf = (step sys q c).got.foldl storeBuf buf0 := by
  cases hpc : c.pc with
  | done => rw [step_done _ _ _ hpc]; exact ⟨hout, hseen, hbuf⟩
  | poll off =>
    by_cases h : sys.lseek c.t = off
    · rw [step_poll_same sys q c off hpc h]; exact ⟨hout, hseen, hbuf⟩
    · rw [step_poll_changed sys q c off hpc h]; exact ⟨hout, hseen, hbuf⟩
  | top =>
    by_cases hlt : c.loff < sys.lseek c.t
    · rw [step_top_read sys q c hpc hlt]
      have hr := res_eq_bytes _ (hok (c.t + 1) (readCount (sys.lseek c.t) c.loff) c.loff)
      simp only [readStep]
      rw [feed_append, ← hseen, ← hbuf, ← hr, hout, List.append_assoc, List.foldl_append,
        ← hbuf]
      exact ⟨rfl, rfl, rfl⟩
    · rw [step_top_lock sys q c hpc (not_lt.mp hlt)]
      have hf := lockStep_fields sys c (sys.lseek c.t) (sys.lseek c.t)
      rw [hf.2.1, hf.2.2.2.2.1, hf.2.2.2.2.2, lockStep_got]
      exact ⟨hout, hseen, hbuf⟩

/-- The bytes written by the streaming loop are the quiet filter applied to the chunks
its reads returned: when no read fails, a loop that has left wrote the header followed
by `emittedFor` of the data returned by its reads. -/
theorem tail_eq_emittedFor (sys : Sys) (q : Bool) (name buf : List Char) (t fuel : Nat)
    (hok : ∀ t k off, sys.pread t k off ≠ .fail)
    (hdone : (run sys q fuel (initCfg q name buf t)).pc = .done) :
    tailFile sys q name buf t fuel
      = some ("==> ".toList ++ name ++ [if q then ' ' else '\n'] ++
          emittedFor q (run sys q fuel (initCfg q name buf t)).got buf) := by
  have inv : ∀ n,
      (run sys q n (initCfg q name buf t)).out
        = "==> ".toList ++ name ++ [if q then ' ' else '\n'] ++
            (feed q (run sys q n (initCfg q name buf t)).got false buf).1 ∧
      (run sys q n (initCfg q name buf t)).seen_nl
        = (feed q (run sys q n (initCfg q name buf t)).got false buf).2 ∧
      (run sys q n (initCfg q name buf t)).buf
        = (run sys q n (initCfg q name buf t)).got.foldl storeBuf buf := by
    intro n
    induction n with
    | zero => simp [run, initCfg, feed]
    | succ n ih =>
      rw [run_succ]
      exact step_feed sys q _ buf hok _ ih.1 ih.2.1 ih.2.2
  unfold tailFile emittedFor
  simp only [hdone, if_true]
  rw [(inv fuel).1, ← (inv fuel).2.1, List.append_assoc]


theorem readCount_le (off loff : Int) : readCount off loff ≤ sizeofBuf := by
  unfold readCount
  simp only []
  by_cases hc : toSizeT (off - loff) > sizeofBuf
  · rw [if_pos hc]
    have : loff + (sizeofBuf : Int) - loff = ((8192 : Nat) : Int) := by
      unfold sizeofBuf; push_cast; ring
    rw [this, toSizeT_natCast _ (by norm_num)]
    exact le_refl _
  · rw [if_neg hc]
    exact not_lt.mp hc

theorem step_got_le (sys : Sys) (q : Bool)
    (hlen : ∀ t k off d, sys.pread t k off = .bytes d → d.length ≤ k) (c : Cfg)
    (hc : ∀ d ∈ c.got, d.length ≤ sizeofBuf) :
    ∀ d ∈ (step sys q c).got, d.length ≤ sizeofBuf := by
  cases hpc : c.pc with
  | done => rw [step_done _ _ _ hpc]; exact hc
  | poll off =>
    by_cases h : sys.lseek c.t = off
    · rw [step_poll_same sys q c off hpc h]; exact hc
    · rw [step_poll_changed sys q c off hpc h]; exact hc
  | top =>
    by_cases hlt : c.loff < sys.lseek c.t
    · rw [step_top_read sys q c hpc hlt]
      intro d hd
      simp only [readStep, List.mem_append, List.mem_singleton] at hd
      rcases hd with hd | hd
      · exact hc d hd
      · cases hr : sys.pread (c.t + 1) (readCount (sys.lseek c.t) c.loff) c.loff with
        | fail => rw [hr] at hd; rw [hd]; simp [ReadRes.data]
        | bytes x =>
          rw [hr] at hd
          rw [hd]
          exact le_trans (hlen _ _ _ _ hr) (readCount_le _ _)
    · rw [step_top_lock sys q c hpc (not_lt.mp hlt), lockStep_got]
      exact hc

/-- Quiet tailing by the streaming loop: when every read succeeds with at most the
requested number of bytes, a loop that has left wrote the header line up to and including
the first newline of the data read, or all the data read and one newline. -/
theorem quiet_loop_output (sys : Sys) (name buf : List Char) (t fuel : Nat)
    (hok : ∀ t k off, sys.pread t k off ≠ .fail)
    (hlen : ∀ t k off d, sys.pread t k off = .bytes d → d.length ≤ k)
    (hdone : (run sys true fuel (initCfg true name buf t)).pc = .done) :
    tailFile sys true name buf t fuel
      = some ("==> ".toList ++ name ++ [' '] ++
          (if '\n' ∈ (run sys true fuel (initCfg true name buf t)).got.flatten then
            (run sys true fuel (initCfg true name buf t)).got.flatten.take
              ((run sys true fuel (initCfg true name buf t)).got.flatten.indexOf '\n' + 1)
          else (run sys true fuel (initCfg true name buf t)).got.flatten ++ ['\n'])) := by
  have hgot : ∀ n, ∀ d ∈ (run sys true n (initCfg true name buf t)).got,
      d.length ≤ sizeofBuf := by
    intro n
    induction n with
    | zero => intro d hd; simp [run, initCfg] at hd
    | succ n ih => rw [run_succ]; exact step_got_le sys true hlen _ ih
  rw [tail_eq_emittedFor sys true name buf t fuel hok hdone,
    emittedFor_quiet _ buf (hgot fuel)]
  rfl

end Fq
